import Mathlib

set_option linter.unusedSectionVars false

/-!
# Verification of the face-matching pipeline core

Shallow embedding of `src/facematch/face_matching.py`: the similarity
engine `find_closest` (a dot-product matrix, `argmax`/`max` along each
row) and the match assembler `FaceMatcher.recoginze` (name lookup,
threshold decision, stable sort by the bounding box's first coordinate).

Similarity scores and thresholds live in an arbitrary linearly ordered
commutative ring `α` (an idealization of the floating-point values of
the source; `ℚ` and `ℝ` are instances, and concrete witnesses use `ℤ`).
numpy and Python exceptions become an explicit `Except` error type, and
Python's stable `sorted` an insertion sort that places each element
before later elements with an equal key.
-/

deriving instance DecidableEq for Except

namespace FaceMatching

variable {α : Type} [LinearOrderedCommRing α]

/-- Error kinds of the pipeline, following the spec's error model:
`InvalidInput` is the failure numpy raises when `argmax` is taken over an
empty reference axis; `IndexError` is Python's out-of-range list
indexing (in `self.reference.names[i]`). -/
inductive FMError where
  | InvalidInput : FMError
  | IndexError : FMError
deriving DecidableEq, Repr

/-- Dot product of two embedding vectors (`np.dot` on 1-D slices):
sum of pairwise products. On vectors of equal dimension this is the
inner product used by `find_closest`. -/
def dot (u v : List α) : α :=
  (List.zipWith (· * ·) u v).sum

/-- Best entry of one row of the cosine matrix: `none` on an empty row
(numpy raises on `argmax` of an empty axis), otherwise the index of the
first occurrence of the maximum together with the maximum, exactly the
semantics of `np.argmax` / `np.max` along `axis=1`. -/
def rowBest : List α → Option (ℕ × α)
  | [] => none
  | x :: xs =>
    match rowBest xs with
    | none => some (0, x)
    | some (j, v) => if v > x then some (j + 1, v) else some (0, x)

/-- Row-by-row reduction of the cosine matrix `embeddings × referencesᵀ`:
fails when any row's `argmax` fails (empty reference axis with at least
one candidate row). -/
def bestRows (references : List (List α)) : List (List α) → Option (List (ℕ × α))
  | [] => some []
  | e :: es =>
    match rowBest (references.map (fun r => dot e r)), bestRows references es with
    | some p, some ps => some (p :: ps)
    | _, _ => none

/-- Embedding of `find_closest(embeddings, references)`:
`cosines = np.dot(embeddings, references.T)`,
`best_matches = cosines.argmax(axis=1)`, `distances = cosines.max(axis=1)`.
The numpy `ValueError` on an empty reference set is the spec's
`InvalidInput` error kind. -/
def find_closest (embeddings references : List (List α)) :
    Except FMError (List ℕ × List α) :=
  match bestRows references embeddings with
  | none => Except.error FMError.InvalidInput
  | some best => Except.ok (best.map Prod.fst, best.map Prod.snd)

/-- Bounding box of a detected face in pixel coordinates, as produced
by the external detector. The source sorts results by `coordinates[0]`,
the horizontal (left) coordinate, which the spec lists first. -/
structure Box where
  left : ℤ
  top : ℤ
  right : ℤ
  bottom : ℤ
deriving DecidableEq, Repr

/-- One face found by the external detector: a bounding box plus the
extracted face sub-image (`face.box`, `face.image`). The image type is
abstract — the core only forwards it to the encoder. -/
structure DetectedFace (ι : Type) where
  box : Box
  image : ι
deriving DecidableEq, Repr

/-- Reference set held by the matcher (`self.reference`): parallel
sequences of names and embeddings. -/
structure Reference (α : Type) where
  names : List String
  embeddings : List (List α)
deriving DecidableEq, Repr

/-- One result dict of `recoginze`: `id`, `coordinates`, `best_match`,
`distance`. -/
structure MatchResult (α : Type) where
  id : ℕ
  coordinates : Box
  best_match : String
  distance : α
deriving DecidableEq, Repr

/-- Embedding of `[self.reference.names[i] for i in best_matches]`:
Python list indexing with a non-negative index raises `IndexError` when
the index is out of range. -/
def lookupNames (names : List String) : List ℕ → Except FMError (List String)
  | [] => Except.ok []
  | i :: is =>
    match names[i]? with
    | none => Except.error FMError.IndexError
    | some n =>
      match lookupNames names is with
      | Except.error e => Except.error e
      | Except.ok ns => Except.ok (n :: ns)

/-- Embedding of the result-list comprehension of `recoginze`:
`enumerate(zip(boxes, names, distances))` truncates at the shortest
sequence; each entry applies the threshold rule
`name if distance > threshold else 'unknown'` and
`distance if distance > threshold else -1`. `i` is the enumeration
counter (0 at the top-level call). -/
def assemble (threshold : α) : ℕ → List Box → List String → List α → List (MatchResult α)
  | i, box :: boxes, name :: names, d :: ds =>
    { id := i, coordinates := box,
      best_match := if d > threshold then name else "unknown",
      distance := if d > threshold then d else -1 } ::
      assemble threshold (i + 1) boxes names ds
  | _, _, _, _ => []

/-- Insert into a sorted list, placing the new element before the first
element whose key is not smaller — i.e. before existing elements of
equal key. Folding this over a list from the right yields exactly a
stable sort, the guarantee of Python's `sorted`. -/
def sortedInsert (a : MatchResult α) : List (MatchResult α) → List (MatchResult α)
  | [] => [a]
  | b :: l =>
    if b.coordinates.left < a.coordinates.left then b :: sortedInsert a l
    else a :: b :: l

/-- Embedding of `sorted(result, key=lambda x: x['coordinates'][0])`:
a stable sort, ascending on the box's left coordinate. -/
def sortByLeft (l : List (MatchResult α)) : List (MatchResult α) :=
  l.foldr sortedInsert []

/-- Embedding of `FaceMatcher.recoginze(image, threshold)`. The external
collaborators appear as data: `detected` is the detector's output
(`self.detector.find_faces(image)`) and `encoder` the encoder function
(`self.encoder.calculate_embeddings`). After the early return on an
empty detection, the best matches are computed, names are looked up,
results assembled and stably sorted left to right. -/
def recoginze {ι : Type} (detected : List (DetectedFace ι))
    (encoder : List ι → List (List α)) (reference : Reference α)
    (threshold : α) : Except FMError (List (MatchResult α)) :=
  if detected.isEmpty then Except.ok []
  else
    match find_closest (encoder (detected.map DetectedFace.image))
        reference.embeddings with
    | Except.error e => Except.error e
    | Except.ok (best_matches, distances) =>
      match lookupNames reference.names best_matches with
      | Except.error e => Except.error e
      | Except.ok names =>
        Except.ok (sortByLeft
          (assemble threshold 0 (detected.map DetectedFace.box) names distances))

/-! ## Lemmas about the similarity engine -/

theorem rowBest_eq_none_iff (l : List α) : rowBest l = none ↔ l = [] := by
  cases l with
  | nil => simp [rowBest]
  | cons x xs =>
    simp only [rowBest]
    constructor
    · intro h
      cases hr : rowBest (α := α) xs with
      | none => rw [hr] at h; simp at h
      | some p =>
        rw [hr] at h; obtain ⟨j, v⟩ := p
        split at h <;> (try split at h) <;> simp_all
    · intro h; exact absurd h (List.cons_ne_nil x xs)

theorem rowBest_spec {l : List α} {b : ℕ} {v : α} (h : rowBest l = some (b, v)) :
    b < l.length ∧ l[b]? = some v ∧
      (∀ (j : ℕ) (x : α), l[j]? = some x → x ≤ v) ∧
      (∀ (j : ℕ) (x : α), j < b → l[j]? = some x → x < v) := by
  induction l generalizing b v with
  | nil => simp [rowBest] at h
  | cons x xs ih =>
    simp only [rowBest] at h
    cases hr : rowBest (α := α) xs with
    | none =>
      rw [hr] at h
      have hxs : xs = [] := (rowBest_eq_none_iff xs).mp hr
      simp only [Option.some.injEq, Prod.mk.injEq] at h
      obtain ⟨hb, hv⟩ := h
      subst hb; subst hv; subst hxs
      refine ⟨by simp, by simp, ?_, ?_⟩
      · intro j y hy
        cases j with
        | zero => simp at hy; simp [hy]
        | succ j => simp at hy
      · intro j y hj hy; omega
    | some p =>
      obtain ⟨j, w⟩ := p
      rw [hr] at h
      dsimp only at h
      obtain ⟨hlen, hget, hle, hfirst⟩ := ih hr
      by_cases hwx : w > x
      · rw [if_pos hwx] at h
        simp only [Option.some.injEq, Prod.mk.injEq] at h
        obtain ⟨hb, hv⟩ := h
        subst hb; subst hv
        refine ⟨by simpa using hlen, by simpa using hget, ?_, ?_⟩
        · intro k y hy
          cases k with
          | zero =>
            simp only [List.getElem?_cons_zero, Option.some.injEq] at hy
            exact hy ▸ le_of_lt hwx
          | succ k =>
            simp only [List.getElem?_cons_succ] at hy
            exact hle k y hy
        · intro k y hk hy
          cases k with
          | zero =>
            simp only [List.getElem?_cons_zero, Option.some.injEq] at hy
            exact hy ▸ hwx
          | succ k =>
            simp only [List.getElem?_cons_succ] at hy
            exact hfirst k y (by omega) hy
      · rw [if_neg hwx] at h
        simp only [Option.some.injEq, Prod.mk.injEq] at h
        obtain ⟨hb, hv⟩ := h
        subst hb; subst hv
        refine ⟨by simp, by simp, ?_, ?_⟩
        · intro k y hy
          cases k with
          | zero => simp at hy; simp [hy]
          | succ k =>
            simp only [List.getElem?_cons_succ] at hy
            exact le_trans (hle k y hy) (not_lt.mp hwx)
        · intro k y hk hy; omega

theorem bestRows_some_of_ne_nil {references : List (List α)}
    (hr : references ≠ []) (es : List (List α)) :
    ∃ ps, bestRows references es = some ps := by
  induction es with
  | nil => exact ⟨[], rfl⟩
  | cons e es ih =>
    obtain ⟨ps, hps⟩ := ih
    have hrow : references.map (fun r => dot e r) ≠ [] := by
      simpa using hr
    cases hrb : rowBest (references.map (fun r => dot e r)) with
    | none => exact absurd ((rowBest_eq_none_iff _).mp hrb) hrow
    | some p =>
      refine ⟨p :: ps, ?_⟩
      simp only [bestRows, hrb, hps]

theorem bestRows_spec {references : List (List α)} {es : List (List α)}
    {ps : List (ℕ × α)} (h : bestRows references es = some ps) :
    ps.length = es.length ∧
      ∀ (i : ℕ) (e : List α), es[i]? = some e → ∃ p, ps[i]? = some p ∧
        rowBest (references.map (fun r => dot e r)) = some p := by
  induction es generalizing ps with
  | nil =>
    simp only [bestRows, Option.some.injEq] at h
    subst h
    exact ⟨rfl, by intro i e he; simp at he⟩
  | cons e es ih =>
    simp only [bestRows] at h
    cases hrb : rowBest (references.map (fun r => dot e r)) with
    | none => rw [hrb] at h; simp at h
    | some p =>
      rw [hrb] at h
      cases hbr : bestRows references es with
      | none => rw [hbr] at h; simp at h
      | some qs =>
        rw [hbr] at h
        simp only [Option.some.injEq] at h
        subst h
        obtain ⟨hlen, hspec⟩ := ih hbr
        refine ⟨by simp [hlen], ?_⟩
        intro i e' he'
        cases i with
        | zero =>
          simp only [List.getElem?_cons_zero, Option.some.injEq] at he'
          exact ⟨p, by simp, he' ▸ hrb⟩
        | succ i =>
          simp only [List.getElem?_cons_succ] at he' ⊢
          exact hspec i e' he'

theorem find_closest_ok_elim {embeddings references : List (List α)}
    {bi : List ℕ} {bs : List α}
    (h : find_closest embeddings references = Except.ok (bi, bs)) :
    ∃ ps, bestRows references embeddings = some ps ∧
      bi = ps.map Prod.fst ∧ bs = ps.map Prod.snd := by
  unfold find_closest at h
  cases hbr : bestRows references embeddings with
  | none => rw [hbr] at h; simp at h
  | some ps =>
    rw [hbr] at h
    simp only [Except.ok.injEq, Prod.mk.injEq] at h
    exact ⟨ps, rfl, h.1.symm, h.2.symm⟩

theorem find_closest_lengths {embeddings references : List (List α)}
    {bi : List ℕ} {bs : List α}
    (h : find_closest embeddings references = Except.ok (bi, bs)) :
    bi.length = embeddings.length ∧ bs.length = embeddings.length := by
  obtain ⟨ps, hps, hbi, hbs⟩ := find_closest_ok_elim h
  obtain ⟨hlen, -⟩ := bestRows_spec hps
  subst hbi; subst hbs
  simp [hlen]

/-! ## Lemmas about name lookup -/

theorem lookupNames_ok_spec {names : List String} {idxs : List ℕ} {ns : List String}
    (h : lookupNames names idxs = Except.ok ns) :
    ns.length = idxs.length ∧
      ∀ (k i : ℕ), idxs[k]? = some i →
        ∃ n, ns[k]? = some n ∧ names[i]? = some n := by
  induction idxs generalizing ns with
  | nil =>
    simp only [lookupNames, Except.ok.injEq] at h
    subst h
    exact ⟨rfl, by intro k i hk; simp at hk⟩
  | cons i is ih =>
    simp only [lookupNames] at h
    cases hn : names[i]? with
    | none => rw [hn] at h; simp at h
    | some n =>
      rw [hn] at h
      cases hrest : lookupNames names is with
      | error e => rw [hrest] at h; simp at h
      | ok ns' =>
        rw [hrest] at h
        simp only [Except.ok.injEq] at h
        subst h
        obtain ⟨hlen, hspec⟩ := ih hrest
        refine ⟨by simp [hlen], ?_⟩
        intro k j hk
        cases k with
        | zero =>
          simp only [List.getElem?_cons_zero, Option.some.injEq] at hk
          exact ⟨n, by simp, hk ▸ hn⟩
        | succ k =>
          simp only [List.getElem?_cons_succ] at hk ⊢
          exact hspec k j hk

theorem lookupNames_ok_of_bounds {names : List String} {idxs : List ℕ}
    (h : ∀ i ∈ idxs, i < names.length) :
    ∃ ns, lookupNames names idxs = Except.ok ns := by
  induction idxs with
  | nil => exact ⟨[], rfl⟩
  | cons i is ih =>
    obtain ⟨ns, hns⟩ := ih (fun j hj => h j (List.mem_cons_of_mem i hj))
    have hi : i < names.length := h i (List.mem_cons_self i is)
    refine ⟨names[i] :: ns, ?_⟩
    simp only [lookupNames, List.getElem?_eq_getElem hi, hns]

/-! ## Lemmas about result assembly -/

theorem assemble_getElem? {t : α} {i k : ℕ} {boxes : List Box}
    {names : List String} {ds : List α} {r : MatchResult α} :
    (assemble t i boxes names ds)[k]? = some r ↔
      ∃ box name d, boxes[k]? = some box ∧ names[k]? = some name ∧
        ds[k]? = some d ∧
        r = { id := i + k, coordinates := box,
              best_match := if d > t then name else "unknown",
              distance := if d > t then d else -1 } := by
  induction boxes generalizing i k names ds with
  | nil => simp [assemble]
  | cons box boxes ih =>
    cases names with
    | nil => simp [assemble]
    | cons name names =>
      cases ds with
      | nil => simp [assemble]
      | cons d ds =>
        cases k with
        | zero =>
          simp only [assemble, List.getElem?_cons_zero, Option.some.injEq]
          constructor
          · intro h
            refine ⟨box, name, d, rfl, rfl, rfl, ?_⟩
            rw [← h]
            simp
          · rintro ⟨box', name', d', rfl, rfl, rfl, h4⟩
            rw [h4]
            simp
        | succ k =>
          simp only [assemble, List.getElem?_cons_succ]
          rw [ih]
          have hik : i + 1 + k = i + (k + 1) := by omega
          rw [hik]

theorem assemble_length (t : α) (i : ℕ) (boxes : List Box)
    (names : List String) (ds : List α) :
    (assemble t i boxes names ds).length =
      min boxes.length (min names.length ds.length) := by
  induction boxes generalizing i names ds with
  | nil => simp [assemble]
  | cons box boxes ih =>
    cases names with
    | nil => simp [assemble]
    | cons name names =>
      cases ds with
      | nil => simp [assemble]
      | cons d ds => simp only [assemble, List.length_cons, ih]; omega

theorem assemble_pairwise_id (t : α) (i : ℕ) (boxes : List Box)
    (names : List String) (ds : List α) :
    (assemble t i boxes names ds).Pairwise (fun a b => a.id < b.id) := by
  induction boxes generalizing i names ds with
  | nil => simp [assemble]
  | cons box boxes ih =>
    cases names with
    | nil => simp [assemble]
    | cons name names =>
      cases ds with
      | nil => simp [assemble]
      | cons d ds =>
        simp only [assemble]
        refine List.pairwise_cons.mpr ⟨?_, ih (i + 1) names ds⟩
        intro r hr
        obtain ⟨k, hk⟩ := List.mem_iff_getElem?.mp hr
        obtain ⟨box', name', d', -, -, -, hr'⟩ := assemble_getElem?.mp hk
        simp only [hr']
        omega

theorem assemble_map_id (t : α) (i : ℕ) (boxes : List Box)
    (names : List String) (ds : List α) :
    (assemble t i boxes names ds).map (fun r => r.id) =
      List.range' i (assemble t i boxes names ds).length := by
  induction boxes generalizing i names ds with
  | nil => simp [assemble]
  | cons box boxes ih =>
    cases names with
    | nil => simp [assemble]
    | cons name names =>
      cases ds with
      | nil => simp [assemble]
      | cons d ds =>
        simp only [assemble, List.map_cons, List.length_cons, List.range'_succ]
        rw [ih]

theorem assemble_forall₂ {t₁ t₂ : α} (hle : t₁ ≤ t₂) (i : ℕ) (boxes : List Box)
    (names : List String) (ds : List α) :
    List.Forall₂
      (fun r₁ r₂ : MatchResult α => r₁.id = r₂.id ∧
        r₁.coordinates = r₂.coordinates ∧
        (r₁.best_match = "unknown" → r₂.best_match = "unknown"))
      (assemble t₁ i boxes names ds) (assemble t₂ i boxes names ds) := by
  induction boxes generalizing i names ds with
  | nil => simp [assemble]
  | cons box boxes ih =>
    cases names with
    | nil => simp [assemble]
    | cons name names =>
      cases ds with
      | nil => simp [assemble]
      | cons d ds =>
        simp only [assemble]
        refine List.Forall₂.cons ⟨rfl, rfl, ?_⟩ (ih (i + 1) names ds)
        intro hunk
        by_cases h2 : d > t₂
        · have h1 : d > t₁ := lt_of_le_of_lt hle h2
          rw [if_pos h1] at hunk
          rw [if_pos h2]
          exact hunk
        · rw [if_neg h2]

/-! ## Lemmas about the stable sort -/

theorem sortedInsert_perm (a : MatchResult α) (l : List (MatchResult α)) :
    List.Perm (sortedInsert a l) (a :: l) := by
  induction l with
  | nil => exact List.Perm.refl _
  | cons b l ih =>
    simp only [sortedInsert]
    by_cases hc : b.coordinates.left < a.coordinates.left
    · rw [if_pos hc]
      exact (ih.cons b).trans (List.Perm.swap a b l)
    · rw [if_neg hc]

theorem sortByLeft_perm (l : List (MatchResult α)) :
    List.Perm (sortByLeft l) l := by
  induction l with
  | nil => exact List.Perm.refl _
  | cons a l ih => exact (sortedInsert_perm a (sortByLeft l)).trans (ih.cons a)

/-- Strict order in which `recoginze`'s output is arranged: ascending on
the box's left coordinate, with ties in ascending `id` (= original
detection) order. -/
def spatialOrder (a b : MatchResult α) : Prop :=
  a.coordinates.left < b.coordinates.left ∨
    (a.coordinates.left = b.coordinates.left ∧ a.id < b.id)

theorem pairwise_sortedInsert {a : MatchResult α} {l : List (MatchResult α)}
    (hl : l.Pairwise spatialOrder) (ha : ∀ b ∈ l, a.id < b.id) :
    (sortedInsert a l).Pairwise spatialOrder := by
  induction l with
  | nil => simp [sortedInsert, spatialOrder]
  | cons b l ih =>
    obtain ⟨hb, hl'⟩ := List.pairwise_cons.mp hl
    simp only [sortedInsert]
    by_cases hc : b.coordinates.left < a.coordinates.left
    · rw [if_pos hc]
      refine List.pairwise_cons.mpr
        ⟨?_, ih hl' (fun c hc' => ha c (List.mem_cons_of_mem b hc'))⟩
      intro c hc'
      rw [(sortedInsert_perm a l).mem_iff] at hc'
      rcases List.mem_cons.mp hc' with rfl | hc'
      · exact Or.inl hc
      · exact hb c hc'
    · rw [if_neg hc]
      refine List.pairwise_cons.mpr ⟨?_, hl⟩
      intro c hc'
      rcases List.mem_cons.mp hc' with rfl | hc'
      · rcases lt_or_eq_of_le (not_lt.mp hc) with h | h
        · exact Or.inl h
        · exact Or.inr ⟨h, ha c (List.mem_cons_self c l)⟩
      · have hbc := hb c hc'
        have hab : a.coordinates.left ≤ b.coordinates.left := not_lt.mp hc
        rcases hbc with h | ⟨h, -⟩
        · exact Or.inl (lt_of_le_of_lt hab h)
        · rcases lt_or_eq_of_le (h ▸ hab) with h' | h'
          · exact Or.inl h'
          · exact Or.inr ⟨h', ha c (List.mem_cons_of_mem b hc')⟩

theorem pairwise_sortByLeft {l : List (MatchResult α)}
    (hids : l.Pairwise (fun a b => a.id < b.id)) :
    (sortByLeft l).Pairwise spatialOrder := by
  induction l with
  | nil => simp [sortByLeft]
  | cons a l ih =>
    obtain ⟨ha, hl⟩ := List.pairwise_cons.mp hids
    exact pairwise_sortedInsert (ih hl)
      (fun b hb => ha b ((sortByLeft_perm l).mem_iff.mp hb))

theorem sortedInsert_forall₂ {R : MatchResult α → MatchResult α → Prop}
    (hkey : ∀ a b, R a b → a.coordinates = b.coordinates)
    {a₁ a₂ : MatchResult α} {l₁ l₂ : List (MatchResult α)}
    (ha : R a₁ a₂) (hl : List.Forall₂ R l₁ l₂) :
    List.Forall₂ R (sortedInsert a₁ l₁) (sortedInsert a₂ l₂) := by
  induction hl with
  | nil => exact List.Forall₂.cons ha List.Forall₂.nil
  | @cons b₁ b₂ l₁ l₂ hb hl ih =>
    simp only [sortedInsert]
    have hco : b₁.coordinates = b₂.coordinates := hkey _ _ hb
    have hco' : a₁.coordinates = a₂.coordinates := hkey _ _ ha
    by_cases hc : b₁.coordinates.left < a₁.coordinates.left
    · rw [if_pos hc, if_pos (by rw [← hco, ← hco']; exact hc)]
      exact List.Forall₂.cons hb ih
    · rw [if_neg hc, if_neg (by rw [← hco, ← hco']; exact hc)]
      exact List.Forall₂.cons ha (List.Forall₂.cons hb hl)

theorem sortByLeft_forall₂ {R : MatchResult α → MatchResult α → Prop}
    (hkey : ∀ a b, R a b → a.coordinates = b.coordinates)
    {l₁ l₂ : List (MatchResult α)} (hl : List.Forall₂ R l₁ l₂) :
    List.Forall₂ R (sortByLeft l₁) (sortByLeft l₂) := by
  induction hl with
  | nil => exact List.Forall₂.nil
  | cons ha hl ih => exact sortedInsert_forall₂ hkey ha ih

/-! ## Lemmas about `recoginze` -/

theorem recoginze_ok_elim {ι : Type} {detected : List (DetectedFace ι)}
    {encoder : List ι → List (List α)} {reference : Reference α} {t : α}
    {res : List (MatchResult α)} (hne : detected ≠ [])
    (h : recoginze detected encoder reference t = Except.ok res) :
    ∃ bi bs names,
      find_closest (encoder (detected.map DetectedFace.image))
          reference.embeddings = Except.ok (bi, bs) ∧
      lookupNames reference.names bi = Except.ok names ∧
      res = sortByLeft
        (assemble t 0 (detected.map DetectedFace.box) names bs) := by
  unfold recoginze at h
  rw [if_neg (by simp [hne])] at h
  cases hfc : find_closest (encoder (detected.map DetectedFace.image))
      reference.embeddings with
  | error e => rw [hfc] at h; simp at h
  | ok p =>
    obtain ⟨bi, bs⟩ := p
    rw [hfc] at h
    dsimp only at h
    cases hln : lookupNames reference.names bi with
    | error e => rw [hln] at h; simp at h
    | ok names =>
      rw [hln] at h
      simp only [Except.ok.injEq] at h
      exact ⟨bi, bs, names, rfl, hln, h.symm⟩

/-! ## Claim theorems -/

/-- C1: for every set of `N` candidate embeddings and `M ≥ 1` reference
embeddings, `find_closest` succeeds and returns sequences of length `N`
where `best_index[i] ∈ [0, M)`, `best_index[i]` attains the maximal dot
product of row `i`, and `best_score[i]` is that maximum over all
references. -/
theorem find_closest_best_matches (embeddings references : List (List α))
    (hM : references ≠ []) :
    ∃ bi bs, find_closest embeddings references = Except.ok (bi, bs) ∧
      bi.length = embeddings.length ∧ bs.length = embeddings.length ∧
      ∀ (i : ℕ) (e : List α), embeddings[i]? = some e →
        ∃ b s, bi[i]? = some b ∧ bs[i]? = some s ∧
          b < references.length ∧
          (∃ r, references[b]? = some r ∧ dot e r = s) ∧
          ∀ (j : ℕ) (r : List α), references[j]? = some r → dot e r ≤ s := by
  obtain ⟨ps, hps⟩ := bestRows_some_of_ne_nil hM embeddings
  obtain ⟨hlen, hspec⟩ := bestRows_spec hps
  refine ⟨ps.map Prod.fst, ps.map Prod.snd, ?_, by simp [hlen], by simp [hlen], ?_⟩
  · unfold find_closest
    rw [hps]
  · intro i e he
    obtain ⟨p, hp, hrb⟩ := hspec i e he
    obtain ⟨b, s⟩ := p
    obtain ⟨hblen, hget, hle, -⟩ := rowBest_spec hrb
    refine ⟨b, s, by simp [List.getElem?_map, hp], by simp [List.getElem?_map, hp],
      by simpa using hblen, ?_, ?_⟩
    · rw [List.getElem?_map] at hget
      cases hr : references[b]? with
      | none => rw [hr] at hget; simp at hget
      | some r =>
        rw [hr] at hget
        simp only [Option.map_some', Option.some.injEq] at hget
        exact ⟨r, rfl, hget⟩
    · intro j r hjr
      refine hle j (dot e r) ?_
      rw [List.getElem?_map, hjr]
      rfl

/-- Witness for C1 on the spec's concrete scenario: two candidates
`[[1,0],[0,1]]` against references `[[1,0],[0,1]]`. -/
theorem find_closest_best_matches_witness :
    ([[(1 : ℤ), 0], [0, 1]] : List (List ℤ)) ≠ [] ∧
      (∃ bi bs, find_closest [[(1 : ℤ), 0], [0, 1]] [[(1 : ℤ), 0], [0, 1]] =
          Except.ok (bi, bs) ∧
        bi.length = [[(1 : ℤ), 0], [0, 1]].length ∧
        bs.length = [[(1 : ℤ), 0], [0, 1]].length ∧
        ∀ (i : ℕ) (e : List ℤ), [[(1 : ℤ), 0], [0, 1]][i]? = some e →
          ∃ b s, bi[i]? = some b ∧ bs[i]? = some s ∧
            b < [[(1 : ℤ), 0], [0, 1]].length ∧
            (∃ r, [[(1 : ℤ), 0], [0, 1]][b]? = some r ∧ dot e r = s) ∧
            ∀ (j : ℕ) (r : List ℤ), [[(1 : ℤ), 0], [0, 1]][j]? = some r →
              dot e r ≤ s) :=
  ⟨by decide, find_closest_best_matches _ _ (by decide)⟩

/-- C3: `find_closest` with an empty reference set and at least one
candidate embedding fails with the `InvalidInput` error kind. -/
theorem find_closest_empty_reference_set (embeddings : List (List α))
    (hN : embeddings ≠ []) :
    find_closest embeddings [] = Except.error FMError.InvalidInput := by
  cases embeddings with
  | nil => exact absurd rfl hN
  | cons e es => rfl

/-- Witness for C3 at one candidate embedding `[1]`. -/
theorem find_closest_empty_reference_set_witness :
    ([[(1 : ℤ)]] : List (List ℤ)) ≠ [] ∧
      find_closest [[(1 : ℤ)]] ([] : List (List ℤ)) =
        Except.error FMError.InvalidInput :=
  ⟨by decide, find_closest_empty_reference_set _ (by decide)⟩

/-- C5: on a tie for the maximum similarity, `find_closest` selects the
lowest reference index: every reference strictly before the returned
index has a strictly smaller dot product. -/
theorem find_closest_tie_break {embeddings references : List (List α)}
    {bi : List ℕ} {bs : List α}
    (h : find_closest embeddings references = Except.ok (bi, bs)) :
    ∀ (i : ℕ) (e : List α) (b : ℕ) (s : α),
      embeddings[i]? = some e → bi[i]? = some b → bs[i]? = some s →
      ∀ (j : ℕ) (r : List α), j < b → references[j]? = some r →
        dot e r < s := by
  intro i e b s he hb hs j r hj hjr
  obtain ⟨ps, hps, rfl, rfl⟩ := find_closest_ok_elim h
  obtain ⟨-, hspec⟩ := bestRows_spec hps
  obtain ⟨p, hp, hrb⟩ := hspec i e he
  rw [List.getElem?_map, hp] at hb hs
  obtain ⟨b', s'⟩ := p
  simp only [Option.map_some', Option.some.injEq] at hb hs
  subst hb
  subst hs
  obtain ⟨-, -, -, hfirst⟩ := rowBest_spec hrb
  refine hfirst j (dot e r) hj ?_
  rw [List.getElem?_map, hjr]
  rfl

/-- Witness for C5: one candidate `[1,0]` against references
`[[0,1],[1,0],[1,0]]` — the maximum `1` is attained at indices 1 and 2,
and index 1 is returned; the reference before it scores strictly less. -/
theorem find_closest_tie_break_witness :
    find_closest [[(1 : ℤ), 0]] [[0, 1], [1, 0], [1, 0]] =
        Except.ok (([1] : List ℕ), ([1] : List ℤ)) ∧
      ∀ (i : ℕ) (e : List ℤ) (b : ℕ) (s : ℤ),
        [[(1 : ℤ), 0]][i]? = some e → ([1] : List ℕ)[i]? = some b →
        ([1] : List ℤ)[i]? = some s →
        ∀ (j : ℕ) (r : List ℤ), j < b →
          [[(0 : ℤ), 1], [1, 0], [1, 0]][j]? = some r → dot e r < s :=
  ⟨by decide, find_closest_tie_break (by decide)⟩

/-- C9: with a nonempty reference set whose names and embeddings have
the same length, every best-match index returned by `find_closest` is a
valid index into the names, and the name lookup of `recoginze`
succeeds. -/
theorem find_closest_indices_valid {embeddings : List (List α)}
    {reference : Reference α} {bi : List ℕ} {bs : List α}
    (_hne : reference.embeddings ≠ [])
    (hlen : reference.names.length = reference.embeddings.length)
    (h : find_closest embeddings reference.embeddings = Except.ok (bi, bs)) :
    (∀ b ∈ bi, b < reference.names.length) ∧
      ∃ ns, lookupNames reference.names bi = Except.ok ns := by
  have hbound : ∀ b ∈ bi, b < reference.names.length := by
    intro b hbmem
    obtain ⟨ps, hps, rfl, -⟩ := find_closest_ok_elim h
    rw [List.mem_map] at hbmem
    obtain ⟨p, hpmem, rfl⟩ := hbmem
    obtain ⟨k, hk⟩ := List.mem_iff_getElem?.mp hpmem
    obtain ⟨hplen, hspec⟩ := bestRows_spec hps
    have hklt : k < embeddings.length := by
      have := (List.getElem?_eq_some.mp hk).1
      omega
    obtain ⟨e, he⟩ : ∃ e, embeddings[k]? = some e :=
      ⟨embeddings[k], List.getElem?_eq_getElem hklt⟩
    obtain ⟨p', hp', hrb⟩ := hspec k e he
    rw [hk] at hp'
    have hpp : p = p' := Option.some.inj hp'
    subst hpp
    obtain ⟨b', v'⟩ := p
    obtain ⟨hblen, -, -, -⟩ := rowBest_spec hrb
    rw [hlen]
    simpa using hblen
  exact ⟨hbound, lookupNames_ok_of_bounds hbound⟩

/-- Witness for C9: reference set with names `["a","b"]` and embeddings
`[[1],[2]]`; the candidate `[1]` selects index 1, within bounds, and the
lookup returns `["b"]`. -/
theorem find_closest_indices_valid_witness :
    (Reference.mk ["a", "b"] [[(1 : ℤ)], [2]]).embeddings ≠ [] ∧
      (Reference.mk ["a", "b"] [[(1 : ℤ)], [2]]).names.length =
        (Reference.mk ["a", "b"] [[(1 : ℤ)], [2]]).embeddings.length ∧
      find_closest [[(1 : ℤ)]] (Reference.mk ["a", "b"] [[(1 : ℤ)], [2]]).embeddings =
        Except.ok (([1] : List ℕ), ([2] : List ℤ)) ∧
      (∀ b ∈ ([1] : List ℕ), b < (Reference.mk ["a", "b"] [[(1 : ℤ)], [2]]).names.length) ∧
      ∃ ns, lookupNames (Reference.mk ["a", "b"] [[(1 : ℤ)], [2]]).names
        ([1] : List ℕ) = Except.ok ns :=
  ⟨by decide, by decide, by decide,
    @find_closest_indices_valid ℤ _ [[(1 : ℤ)]]
      (Reference.mk ["a", "b"] [[(1 : ℤ)], [2]]) [1] [2]
      (by decide) (by decide) (by decide)⟩

/-- C2: for every detected face `i`, if `best_score[i] > threshold` the
result with identifier `i` carries the matched reference name and the
raw similarity; if `best_score[i] ≤ threshold` (including equality) it
carries the sentinel `"unknown"` and score `-1`. -/
theorem recoginze_threshold_rule {ι : Type} {detected : List (DetectedFace ι)}
    {encoder : List ι → List (List α)} {reference : Reference α} {t : α}
    {res : List (MatchResult α)} {bi : List ℕ} {bs : List α}
    (hok : recoginze detected encoder reference t = Except.ok res)
    (hfc : find_closest (encoder (detected.map DetectedFace.image))
      reference.embeddings = Except.ok (bi, bs)) :
    ∀ (i b : ℕ) (s : α), bi[i]? = some b → bs[i]? = some s →
      i < detected.length →
      ∃ r ∈ res, r.id = i ∧ ∃ n, reference.names[b]? = some n ∧
        (s > t → r.best_match = n ∧ r.distance = s) ∧
        (s ≤ t → r.best_match = "unknown" ∧ r.distance = -1) := by
  intro i b s hb hs hi
  have hne : detected ≠ [] := by
    intro hd
    rw [hd] at hi
    simp at hi
  obtain ⟨bi', bs', names, hfc', hln, hres⟩ := recoginze_ok_elim hne hok
  rw [hfc] at hfc'
  simp only [Except.ok.injEq, Prod.mk.injEq] at hfc'
  obtain ⟨rfl, rfl⟩ := hfc'
  obtain ⟨-, hlnspec⟩ := lookupNames_ok_spec hln
  obtain ⟨n, hnk, hnb⟩ := hlnspec i b hb
  have hbox : (detected.map DetectedFace.box)[i]? = some detected[i].box := by
    rw [List.getElem?_map, List.getElem?_eq_getElem hi]
    rfl
  have hr : (assemble t 0 (detected.map DetectedFace.box) names bs)[i]? =
      some { id := 0 + i, coordinates := detected[i].box,
             best_match := if s > t then n else "unknown",
             distance := if s > t then s else -1 } :=
    assemble_getElem?.mpr ⟨detected[i].box, n, s, hbox, hnk, hs, rfl⟩
  have hmem : MatchResult.mk (0 + i) detected[i].box
      (if s > t then n else "unknown") (if s > t then s else -1) ∈ res := by
    rw [hres, (sortByLeft_perm _).mem_iff]
    exact List.mem_iff_getElem?.mpr ⟨i, hr⟩
  refine ⟨_, hmem, by simp, n, hnb, ?_, ?_⟩
  · intro hst
    simp [hst]
  · intro hst
    simp [not_lt.mpr hst]

/-- Witness for C2: one face whose best score `1` exactly equals the
threshold `1` — it is labeled `"unknown"` with score `-1`. -/
theorem recoginze_threshold_rule_witness :
    recoginze [DetectedFace.mk (Box.mk 5 0 6 1) 0]
        (fun _ : List ℕ => [[(1 : ℤ), 0]])
        (Reference.mk ["alice", "bob"] [[(1 : ℤ), 0], [0, 1]]) 1 =
      Except.ok [MatchResult.mk 0 (Box.mk 5 0 6 1) "unknown" (-1)] ∧
    find_closest [[(1 : ℤ), 0]] [[(1 : ℤ), 0], [0, 1]] =
      Except.ok (([0] : List ℕ), ([1] : List ℤ)) ∧
    ∀ (i b : ℕ) (s : ℤ), ([0] : List ℕ)[i]? = some b →
      ([1] : List ℤ)[i]? = some s →
      i < [DetectedFace.mk (Box.mk 5 0 6 1) 0].length →
      ∃ r ∈ [MatchResult.mk 0 (Box.mk 5 0 6 1) "unknown" (-1)], r.id = i ∧
        ∃ n, ["alice", "bob"][b]? = some n ∧
          (s > 1 → r.best_match = n ∧ r.distance = s) ∧
          (s ≤ 1 → r.best_match = "unknown" ∧ r.distance = -1) :=
  ⟨by decide, by decide,
    @recoginze_threshold_rule ℤ _ ℕ [DetectedFace.mk (Box.mk 5 0 6 1) 0]
      (fun _ => [[(1 : ℤ), 0]])
      (Reference.mk ["alice", "bob"] [[(1 : ℤ), 0], [0, 1]]) 1
      [MatchResult.mk 0 (Box.mk 5 0 6 1) "unknown" (-1)] [0] [1]
      (by decide) (by decide)⟩

/-- C4: every successful `recoginze` result list is arranged in
ascending order of the box's left coordinate, with equal coordinates
kept in original (pre-sort, ascending `id`) detection order. -/
theorem recoginze_sorted_stable {ι : Type} {detected : List (DetectedFace ι)}
    {encoder : List ι → List (List α)} {reference : Reference α} {t : α}
    {res : List (MatchResult α)}
    (hok : recoginze detected encoder reference t = Except.ok res) :
    res.Pairwise spatialOrder := by
  by_cases hne : detected = []
  · subst hne
    simp only [recoginze, List.isEmpty_nil, if_true, Except.ok.injEq] at hok
    subst hok
    exact List.Pairwise.nil
  · obtain ⟨bi, bs, names, -, -, hres⟩ := recoginze_ok_elim hne hok
    subst hres
    exact pairwise_sortByLeft (assemble_pairwise_id t 0 _ names bs)

/-- Witness for C4: three faces with left coordinates `[7, 7, 3]`; the
output is ordered `3, 7, 7`, the two ties keeping detection order. -/
theorem recoginze_sorted_stable_witness :
    recoginze [DetectedFace.mk (Box.mk 7 0 8 1) 0,
        DetectedFace.mk (Box.mk 7 1 8 2) 1,
        DetectedFace.mk (Box.mk 3 0 4 1) 2]
        (fun _ : List ℕ => [[(1 : ℤ)], [1], [1]])
        (Reference.mk ["a"] [[(1 : ℤ)]]) 0 =
      Except.ok [MatchResult.mk 2 (Box.mk 3 0 4 1) "a" 1,
        MatchResult.mk 0 (Box.mk 7 0 8 1) "a" 1,
        MatchResult.mk 1 (Box.mk 7 1 8 2) "a" 1] ∧
    List.Pairwise spatialOrder
      [MatchResult.mk 2 (Box.mk 3 0 4 1) "a" (1 : ℤ),
        MatchResult.mk 0 (Box.mk 7 0 8 1) "a" 1,
        MatchResult.mk 1 (Box.mk 7 1 8 2) "a" 1] :=
  ⟨by decide,
    @recoginze_sorted_stable ℤ _ ℕ
      [DetectedFace.mk (Box.mk 7 0 8 1) 0, DetectedFace.mk (Box.mk 7 1 8 2) 1,
        DetectedFace.mk (Box.mk 3 0 4 1) 2]
      (fun _ => [[(1 : ℤ)], [1], [1]]) (Reference.mk ["a"] [[(1 : ℤ)]]) 0
      [MatchResult.mk 2 (Box.mk 3 0 4 1) "a" 1,
        MatchResult.mk 0 (Box.mk 7 0 8 1) "a" 1,
        MatchResult.mk 1 (Box.mk 7 1 8 2) "a" 1]
      (by decide)⟩

/-- C6: when the detector finds no faces, `recoginze` returns the empty
list at once, for every encoder and every reference set — the encoder
and the similarity engine cannot influence (and are not reached by) the
computation. -/
theorem recoginze_empty_detection {ι : Type} (encoder : List ι → List (List α))
    (reference : Reference α) (threshold : α) :
    recoginze ([] : List (DetectedFace ι)) encoder reference threshold =
      Except.ok [] := rfl

/-- C7: a successful `recoginze` call returns exactly one result per
detected face, provided the encoder met its contract of one embedding
per face. -/
theorem recoginze_length {ι : Type} {detected : List (DetectedFace ι)}
    {encoder : List ι → List (List α)} {reference : Reference α} {t : α}
    {res : List (MatchResult α)}
    (hok : recoginze detected encoder reference t = Except.ok res)
    (henc : (encoder (detected.map DetectedFace.image)).length =
      detected.length) :
    res.length = detected.length := by
  by_cases hne : detected = []
  · subst hne
    simp only [recoginze, List.isEmpty_nil, if_true, Except.ok.injEq] at hok
    subst hok
    rfl
  · obtain ⟨bi, bs, names, hfc, hln, hres⟩ := recoginze_ok_elim hne hok
    subst hres
    obtain ⟨hbl, hsl⟩ := find_closest_lengths hfc
    obtain ⟨hnl, -⟩ := lookupNames_ok_spec hln
    rw [(sortByLeft_perm _).length_eq, assemble_length, List.length_map,
      hnl, hbl, hsl, henc]
    omega

/-- Witness for C7: two faces, two results. -/
theorem recoginze_length_witness :
    recoginze [DetectedFace.mk (Box.mk 50 0 60 10) 0,
        DetectedFace.mk (Box.mk 10 0 20 10) 1]
        (fun _ : List ℕ => [[(1 : ℤ), 0], [0, 1]])
        (Reference.mk ["alice", "bob"] [[(1 : ℤ), 0], [0, 1]]) 0 =
      Except.ok [MatchResult.mk 1 (Box.mk 10 0 20 10) "bob" 1,
        MatchResult.mk 0 (Box.mk 50 0 60 10) "alice" 1] ∧
    ((fun _ : List ℕ => [[(1 : ℤ), 0], [0, 1]])
        ([DetectedFace.mk (Box.mk 50 0 60 10) 0,
          DetectedFace.mk (Box.mk 10 0 20 10) 1].map DetectedFace.image)).length =
      [DetectedFace.mk (Box.mk 50 0 60 10) 0,
        DetectedFace.mk (Box.mk 10 0 20 10) 1].length ∧
    ([MatchResult.mk 1 (Box.mk 10 0 20 10) "bob" (1 : ℤ),
        MatchResult.mk 0 (Box.mk 50 0 60 10) "alice" 1]).length =
      ([DetectedFace.mk (Box.mk 50 0 60 10) 0,
        DetectedFace.mk (Box.mk 10 0 20 10) 1]).length :=
  ⟨by decide, by decide,
    @recoginze_length ℤ _ ℕ
      [DetectedFace.mk (Box.mk 50 0 60 10) 0,
        DetectedFace.mk (Box.mk 10 0 20 10) 1]
      (fun _ => [[(1 : ℤ), 0], [0, 1]])
      (Reference.mk ["alice", "bob"] [[(1 : ℤ), 0], [0, 1]]) 0
      [MatchResult.mk 1 (Box.mk 10 0 20 10) "bob" 1,
        MatchResult.mk 0 (Box.mk 50 0 60 10) "alice" 1]
      (by decide) (by decide)⟩

/-- C8: identifiers are assigned before the spatial sort and keep the
original detection order — the output ids are a permutation of
`0 .. N-1`, and the result carrying id `i` has the box of the `i`-th
detected face. -/
theorem recoginze_ids_pre_sort {ι : Type} {detected : List (DetectedFace ι)}
    {encoder : List ι → List (List α)} {reference : Reference α} {t : α}
    {res : List (MatchResult α)}
    (hok : recoginze detected encoder reference t = Except.ok res)
    (henc : (encoder (detected.map DetectedFace.image)).length =
      detected.length) :
    List.Perm (res.map (fun r => r.id)) (List.range detected.length) ∧
      ∀ r ∈ res, ∃ f, detected[r.id]? = some f ∧ r.coordinates = f.box := by
  by_cases hne : detected = []
  · subst hne
    simp only [recoginze, List.isEmpty_nil, if_true, Except.ok.injEq] at hok
    subst hok
    exact ⟨List.Perm.refl _, by simp⟩
  · obtain ⟨bi, bs, names, hfc, hln, hres⟩ := recoginze_ok_elim hne hok
    have hlen : res.length = detected.length := recoginze_length hok henc
    constructor
    · have hperm : List.Perm (res.map (fun r => r.id))
          ((assemble t 0 (detected.map DetectedFace.box) names bs).map
            (fun r => r.id)) := by
        rw [hres]
        exact (sortByLeft_perm
          (assemble t 0 (detected.map DetectedFace.box) names bs)).map
          (fun r => r.id)
      rw [assemble_map_id] at hperm
      have hal : (assemble t 0 (detected.map DetectedFace.box) names bs).length =
          detected.length := by
        rw [← hlen, hres, (sortByLeft_perm _).length_eq]
      rw [hal, ← List.range_eq_range'] at hperm
      exact hperm
    · intro r hr
      rw [hres, (sortByLeft_perm _).mem_iff] at hr
      obtain ⟨k, hk⟩ := List.mem_iff_getElem?.mp hr
      obtain ⟨box, name, d, hbox, -, -, hrshape⟩ := assemble_getElem?.mp hk
      rw [List.getElem?_map] at hbox
      cases hf : detected[k]? with
      | none => rw [hf] at hbox; simp at hbox
      | some f =>
        rw [hf] at hbox
        simp only [Option.map_some', Option.some.injEq] at hbox
        refine ⟨f, ?_, ?_⟩
        · rw [hrshape]
          simpa using hf
        · rw [hrshape, ← hbox]

/-- Witness for C8: detection order `[left 50, left 10]`; the output is
spatially reordered but its ids `[1, 0]` are a permutation of `0..1`
and each id points back at its original detection's box. -/
theorem recoginze_ids_pre_sort_witness :
    recoginze [DetectedFace.mk (Box.mk 50 0 60 10) 0,
        DetectedFace.mk (Box.mk 10 0 20 10) 1]
        (fun _ : List ℕ => [[(1 : ℤ), 0], [0, 1]])
        (Reference.mk ["alice", "bob"] [[(1 : ℤ), 0], [0, 1]]) 1 =
      Except.ok [MatchResult.mk 1 (Box.mk 10 0 20 10) "unknown" (-1),
        MatchResult.mk 0 (Box.mk 50 0 60 10) "unknown" (-1)] ∧
    List.Perm
      ([MatchResult.mk 1 (Box.mk 10 0 20 10) "unknown" (-1 : ℤ),
        MatchResult.mk 0 (Box.mk 50 0 60 10) "unknown" (-1)].map
        (fun r => r.id))
      (List.range [DetectedFace.mk (Box.mk 50 0 60 10) 0,
        DetectedFace.mk (Box.mk 10 0 20 10) 1].length) ∧
    ∀ r ∈ [MatchResult.mk 1 (Box.mk 10 0 20 10) "unknown" (-1 : ℤ),
        MatchResult.mk 0 (Box.mk 50 0 60 10) "unknown" (-1)],
      ∃ f, [DetectedFace.mk (Box.mk 50 0 60 10) 0,
        DetectedFace.mk (Box.mk 10 0 20 10) 1][r.id]? = some f ∧
        r.coordinates = f.box :=
  ⟨by decide,
    (@recoginze_ids_pre_sort ℤ _ ℕ
      [DetectedFace.mk (Box.mk 50 0 60 10) 0,
        DetectedFace.mk (Box.mk 10 0 20 10) 1]
      (fun _ => [[(1 : ℤ), 0], [0, 1]])
      (Reference.mk ["alice", "bob"] [[(1 : ℤ), 0], [0, 1]]) 1
      [MatchResult.mk 1 (Box.mk 10 0 20 10) "unknown" (-1),
        MatchResult.mk 0 (Box.mk 50 0 60 10) "unknown" (-1)]
      (by decide) (by decide)).1,
    (@recoginze_ids_pre_sort ℤ _ ℕ
      [DetectedFace.mk (Box.mk 50 0 60 10) 0,
        DetectedFace.mk (Box.mk 10 0 20 10) 1]
      (fun _ => [[(1 : ℤ), 0], [0, 1]])
      (Reference.mk ["alice", "bob"] [[(1 : ℤ), 0], [0, 1]]) 1
      [MatchResult.mk 1 (Box.mk 10 0 20 10) "unknown" (-1),
        MatchResult.mk 0 (Box.mk 50 0 60 10) "unknown" (-1)]
      (by decide) (by decide)).2⟩

/-- C10: with identical detector and encoder data, raising the
threshold never turns an `"unknown"` into a named match — the two
result lists align pointwise, agreeing on `id` and `coordinates`, and
every face labeled `"unknown"` at the lower threshold stays
`"unknown"` at the higher one. -/
theorem recoginze_threshold_monotone {ι : Type} {detected : List (DetectedFace ι)}
    {encoder : List ι → List (List α)} {reference : Reference α}
    {t₁ t₂ : α} {res₁ res₂ : List (MatchResult α)}
    (hle : t₁ ≤ t₂)
    (h₁ : recoginze detected encoder reference t₁ = Except.ok res₁)
    (h₂ : recoginze detected encoder reference t₂ = Except.ok res₂) :
    List.Forall₂
      (fun r₁ r₂ : MatchResult α => r₁.id = r₂.id ∧
        r₁.coordinates = r₂.coordinates ∧
        (r₁.best_match = "unknown" → r₂.best_match = "unknown"))
      res₁ res₂ := by
  by_cases hne : detected = []
  · subst hne
    simp only [recoginze, List.isEmpty_nil, if_true, Except.ok.injEq] at h₁ h₂
    subst h₁
    subst h₂
    exact List.Forall₂.nil
  · obtain ⟨bi₁, bs₁, names₁, hfc₁, hln₁, hres₁⟩ := recoginze_ok_elim hne h₁
    obtain ⟨bi₂, bs₂, names₂, hfc₂, hln₂, hres₂⟩ := recoginze_ok_elim hne h₂
    rw [hfc₁] at hfc₂
    simp only [Except.ok.injEq, Prod.mk.injEq] at hfc₂
    obtain ⟨rfl, rfl⟩ := hfc₂
    rw [hln₁] at hln₂
    simp only [Except.ok.injEq] at hln₂
    subst hln₂
    subst hres₁
    subst hres₂
    exact sortByLeft_forall₂ (fun a b hab => hab.2.1)
      (assemble_forall₂ hle 0 _ _ _)

/-- Witness for C10: thresholds `0 ≤ 1`; the face matched at threshold
`0` becomes `"unknown"` at threshold `1`, ids and boxes unchanged. -/
theorem recoginze_threshold_monotone_witness :
    (0 : ℤ) ≤ 1 ∧
    recoginze [DetectedFace.mk (Box.mk 5 0 6 1) 0]
        (fun _ : List ℕ => [[(1 : ℤ), 0]])
        (Reference.mk ["alice", "bob"] [[(1 : ℤ), 0], [0, 1]]) 0 =
      Except.ok [MatchResult.mk 0 (Box.mk 5 0 6 1) "alice" 1] ∧
    recoginze [DetectedFace.mk (Box.mk 5 0 6 1) 0]
        (fun _ : List ℕ => [[(1 : ℤ), 0]])
        (Reference.mk ["alice", "bob"] [[(1 : ℤ), 0], [0, 1]]) 1 =
      Except.ok [MatchResult.mk 0 (Box.mk 5 0 6 1) "unknown" (-1)] ∧
    List.Forall₂
      (fun r₁ r₂ : MatchResult ℤ => r₁.id = r₂.id ∧
        r₁.coordinates = r₂.coordinates ∧
        (r₁.best_match = "unknown" → r₂.best_match = "unknown"))
      [MatchResult.mk 0 (Box.mk 5 0 6 1) "alice" 1]
      [MatchResult.mk 0 (Box.mk 5 0 6 1) "unknown" (-1)] :=
  ⟨by decide, by decide, by decide,
    @recoginze_threshold_monotone ℤ _ ℕ
      [DetectedFace.mk (Box.mk 5 0 6 1) 0] (fun _ => [[(1 : ℤ), 0]])
      (Reference.mk ["alice", "bob"] [[(1 : ℤ), 0], [0, 1]]) 0 1
      [MatchResult.mk 0 (Box.mk 5 0 6 1) "alice" 1]
      [MatchResult.mk 0 (Box.mk 5 0 6 1) "unknown" (-1)]
      (by decide) (by decide) (by decide)⟩

end FaceMatching

section ConcreteEvaluations
open FaceMatching

example : find_closest [[1, 0], [0, 1]] [[(1 : ℤ), 0], [0, 1]] =
    Except.ok ([0, 1], [1, 1]) := by decide

example : find_closest [[(1 : ℤ), 0]] [] = Except.error FMError.InvalidInput := by
  decide

example : find_closest ([] : List (List ℤ)) [] = Except.ok ([], []) := rfl

example : find_closest [[(1 : ℤ), 0]] [[1, 0], [1, 0]] = Except.ok ([0], [1]) := by
  decide

example :
    recoginze
      [⟨⟨50, 0, 60, 10⟩, 0⟩, ⟨⟨10, 0, 20, 10⟩, 1⟩]
      (fun _ : List ℕ => [[(1 : ℤ), 0], [0, 1]])
      ⟨["alice", "bob"], [[1, 0], [0, 1]]⟩ 0 =
    Except.ok
      [⟨1, ⟨10, 0, 20, 10⟩, "bob", 1⟩, ⟨0, ⟨50, 0, 60, 10⟩, "alice", 1⟩] := by
  decide

example :
    recoginze
      [⟨⟨50, 0, 60, 10⟩, 0⟩, ⟨⟨10, 0, 20, 10⟩, 1⟩]
      (fun _ : List ℕ => [[(1 : ℤ), 0], [0, 1]])
      ⟨["alice", "bob"], [[1, 0], [0, 1]]⟩ 2 =
    Except.ok
      [⟨1, ⟨10, 0, 20, 10⟩, "unknown", -1⟩, ⟨0, ⟨50, 0, 60, 10⟩, "unknown", -1⟩] := by
  decide

example :
    recoginze ([] : List (DetectedFace ℕ))
      (fun _ => [[(1 : ℤ), 0]]) ⟨["alice"], [[1, 0]]⟩ 0 = Except.ok [] := rfl

end ConcreteEvaluations
